import Mathlib

/-!
Shallow embedding of the signal-analysis core of `cs-audio-recorder`
(`src/tools/analyze_wav.py` and `src/tools/quick_audio_analysis.py`).

Python floats are modelled as real numbers; Python ints as `ℤ`/`ℕ`.
`int(x)` truncation, `range(start, stop, step)` and list slicing are
embedded explicitly below.  Fallible code (`read_wav_stereo`, which can
raise `RuntimeError`/`ValueError`) is embedded with `Except`.
-/

namespace CSAudio

/-- Python `int(x)` on a float: truncation toward zero. -/
noncomputable def pyInt (x : ℝ) : ℤ := if 0 ≤ x then ⌊x⌋ else ⌈x⌉

/-- Python `range(start, stop, step)` for a positive `step` (the only form the
two scripts use).  For `step ≤ 0` we return `[]`; Python raises `ValueError`
on `step = 0` and counts downward on negative steps, neither of which occurs
in this repository. -/
def pyRange (start stop step : ℤ) : List ℤ :=
  if step ≤ 0 then []
  else (List.range ((stop - start + step - 1) / step).toNat).map
    (fun (i : ℕ) => start + step * (i : ℤ))

/-- `rms(arr)` from both scripts: `sqrt(sum(v*v)/len)`, `0.0` on empty input. -/
noncomputable def rms (arr : List ℝ) : ℝ :=
  if arr = [] then 0 else Real.sqrt ((arr.map (fun v => v * v)).sum / arr.length)

/-- `mean(arr)` from both scripts: arithmetic mean, `0.0` on empty input. -/
noncomputable def mean (arr : List ℝ) : ℝ :=
  if arr = [] then 0 else arr.sum / arr.length

/-- `dbfs(x)` from both scripts: `20*log10(x)` for positive `x`, the `-999.0`
silence sentinel otherwise. -/
noncomputable def dbfs (x : ℝ) : ℝ :=
  if x ≤ 0 then -999 else 20 * Real.logb 10 x

/-- `truncate_same_len(a, b)` from `analyze_wav.py`: cut both lists to the
length of the shorter. -/
def truncate_same_len (a b : List ℝ) : List ℝ × List ℝ :=
  (a.take (min a.length b.length), b.take (min a.length b.length))

/-- The accumulator `num` of the `corr_at_lag` loop: `Σ (x-ma)*(y-mb)` over
`zip(a2, b2)`.  The means are taken over the whole of each slice while the
sum runs over the zip, exactly as the Python loop behaves when the slices
have different lengths. -/
noncomputable def corr_num (a2 b2 : List ℝ) : ℝ :=
  ((a2.zip b2).map (fun p => (p.1 - mean a2) * (p.2 - mean b2))).sum

/-- The accumulator `da` of the `corr_at_lag` loop: `Σ (x-ma)*(x-ma)` over
`zip(a2, b2)`. -/
noncomputable def corr_da (a2 b2 : List ℝ) : ℝ :=
  ((a2.zip b2).map (fun p => (p.1 - mean a2) * (p.1 - mean a2))).sum

/-- The accumulator `db` of the `corr_at_lag` loop: `Σ (y-mb)*(y-mb)` over
`zip(a2, b2)`. -/
noncomputable def corr_db (a2 b2 : List ℝ) : ℝ :=
  ((a2.zip b2).map (fun p => (p.2 - mean b2) * (p.2 - mean b2))).sum

/-- Body of `corr_at_lag` after the slices `a2`, `b2` are formed
(`analyze_wav.py` lines 85-101): returns 0 when a slice is empty, 0 again
when either accumulated variance is nonpositive, and the normalized
cross-correlation `num / sqrt(da*db)` otherwise. -/
noncomputable def corr_core (a2 b2 : List ℝ) : ℝ :=
  if a2 = [] ∨ b2 = [] then 0
  else if corr_da a2 b2 ≤ 0 ∨ corr_db a2 b2 ≤ 0 then 0
  else corr_num a2 b2 / Real.sqrt (corr_da a2 b2 * corr_db a2 b2)

/-- `corr_at_lag(a, b, lag)` from `analyze_wav.py`: form the slices
(`lag = 0`: truncate to equal length; `lag > 0`: `a2 = a[lag:]`,
`b2 = b[:len(a2)]`; `lag < 0`: `b2 = b[-lag:]`, `a2 = a[:len(b2)]`)
and hand them to `corr_core`. -/
noncomputable def corr_at_lag (a b : List ℝ) (lag : ℤ) : ℝ :=
  if lag = 0 then
    corr_core (truncate_same_len a b).1 (truncate_same_len a b).2
  else if 0 < lag then
    let a2 := a.drop lag.toNat
    corr_core a2 (b.take a2.length)
  else
    let b2 := b.drop (-lag).toNat
    corr_core (a.take b2.length) b2

/-- One step of the scan in `best_lag`: adopt `lag` exactly when its
correlation is strictly greater than the best seen so far. -/
noncomputable def best_step (a b : List ℝ) (best : ℤ × ℝ) (lag : ℤ) : ℤ × ℝ :=
  let c := corr_at_lag a b lag
  if best.2 < c then (lag, c) else best

/-- `best_lag(a, b, sr, max_ms, step)` from `analyze_wav.py`:
`maxlag = int(sr*max_ms/1000.0)`, scan `range(-maxlag, maxlag+1, step)`
starting from `(best, bestc) = (0, -2.0)`. -/
noncomputable def best_lag (a b : List ℝ) (sr maxMs step : ℕ) : ℤ × ℝ :=
  let maxlag : ℤ := (sr * maxMs / 1000 : ℕ)
  (pyRange (-maxlag) (maxlag + 1) step).foldl (best_step a b) (0, -2)

/-- `leakage_db(target, reference)` from `analyze_wav.py`: over the common
prefix of length `n = min(len(target), len(reference))` compute
`rr = Σ r*r` and `rt = Σ r*t`; `(None, None)` when `n = 0`, `(0.0, 0.0)`
when `rr ≤ 0`, otherwise `g = rt/rr` with decibel form `20*log10(|g|)` when
`|g| > 0` and the `-999.0` sentinel when `g = 0`. -/
noncomputable def leakage_db (target reference : List ℝ) : Option ℝ × Option ℝ :=
  let n := min target.length reference.length
  if n = 0 then (none, none)
  else
    let rr := ((reference.take n).map (fun r => r * r)).sum
    let rt := (((reference.take n).zip (target.take n)).map (fun p => p.1 * p.2)).sum
    if rr ≤ 0 then (some 0, some 0)
    else
      let g := rt / rr
      (some g, some (if 0 < |g| then 20 * Real.logb 10 |g| else -999))

/-- The list `rms_list` built by `noise_floor_db`
(`for i in range(0, len(arr)-win, win): rms_list.append(rms(arr[i:i+win]))`). -/
noncomputable def noise_windows (arr : List ℝ) (win : ℕ) : List ℝ :=
  (pyRange 0 ((arr.length : ℤ) - win) win).map
    (fun i => rms ((arr.drop i.toNat).take win))

/-- `noise_floor_db(arr, sr, win_ms, percentile)` from both scripts:
`win = max(1, int(sr*win_ms/1000))`; whole-buffer fallback when the buffer is
shorter than one window or when no window was collected; otherwise sort the
per-window RMS list ascending and return `dbfs` of the entry at
`max(0, int(len*percentile)-1)`.  (Python would raise `IndexError` were the
index out of range, which needs `percentile > 1`; `getD` keeps the embedding
total, and every claim stays in the in-range regime.) -/
noncomputable def noise_floor_db (arr : List ℝ) (sr winMs : ℕ) (percentile : ℝ) : ℝ :=
  let win := max 1 (sr * winMs / 1000)
  if arr.length < win then dbfs (rms arr)
  else
    let rmsList := noise_windows arr win
    if rmsList = [] then dbfs (rms arr)
    else
      let sorted := rmsList.mergeSort (fun x y => decide (x ≤ y))
      let idx := (max 0 (pyInt ((rmsList.length : ℝ) * percentile) - 1)).toNat
      dbfs (sorted.getD idx 0)

/-- Signed 16-bit little-endian value from two bytes (`array('h')` item). -/
def s16 (lo hi : ℕ) : ℤ :=
  let u := lo + 256 * hi
  if u < 32768 then (u : ℤ) else (u : ℤ) - 65536

/-- Signed 32-bit little-endian value from four bytes (`struct.unpack` with
format character i). -/
def i32 (b0 b1 b2 b3 : ℕ) : ℤ :=
  let u := b0 + 256 * b1 + 65536 * b2 + 16777216 * b3
  if u < 2147483648 then (u : ℤ) else (u : ℤ) - 4294967296

/-- IEEE-754 binary32 value of four little-endian bytes (`struct.unpack`
with format character f), as an exact rational.  Exponent 255 (infinity and
NaN, which have no rational value) is mapped to a signed sentinel larger than
every finite float32, so the `maxabs > 10` heuristic still fires on it; the
order-dependent Python comparison behaviour of NaN is not modelled (no claim
depends on decoded values in that region). -/
def f32 (b0 b1 b2 b3 : ℕ) : ℚ :=
  let bits := b0 + 256 * b1 + 65536 * b2 + 16777216 * b3
  let sign : ℚ := if bits / 2147483648 % 2 = 1 then -1 else 1
  let ex := bits / 8388608 % 256
  let frac := bits % 8388608
  if ex = 0 then sign * frac / 2 ^ 149
  else if ex < 255 then sign * ((8388608 + frac : ℕ) : ℚ) * 2 ^ ex / 2 ^ 150
  else sign * 2 ^ 300

/-- Python `max(abs(v) for v in vals) if vals else 0.0`. -/
noncomputable def max_abs (l : List ℝ) : ℝ :=
  match l.map abs with
  | [] => 0
  | x :: xs => xs.foldl max x

/-- The failure modes of `read_wav_stereo`: the two `RuntimeError`s raised
explicitly (wrong channel count, unsupported width) and the `ValueError`
raised by `array.frombytes` when the payload length is not a multiple of the
2-byte item size. -/
inductive WavError : Type
  | badChannels : ℕ → WavError
  | oddBytes : WavError
  | badWidth : ℕ → WavError
  deriving DecidableEq

/-- The `array('h')` content of the 2-byte branch: `len(frames)//2` signed
16-bit little-endian values. -/
def pcm16_vals (frames : List ℕ) : List ℤ :=
  (List.range (frames.length / 2)).map
    (fun i => s16 (frames.getD (i * 2) 0) (frames.getD (i * 2 + 1) 0))

/-- The 2-byte branch's left channel: `[a[i*2]/32768.0 for i in range(len(a)//2)]`. -/
noncomputable def pcm16_left (frames : List ℕ) : List ℝ :=
  (List.range ((pcm16_vals frames).length / 2)).map
    (fun i => (((pcm16_vals frames).getD (i * 2) 0 : ℤ) : ℝ) / 32768)

/-- The 2-byte branch's right channel: `[a[i*2+1]/32768.0 for i in range(len(a)//2)]`. -/
noncomputable def pcm16_right (frames : List ℕ) : List ℝ :=
  (List.range ((pcm16_vals frames).length / 2)).map
    (fun i => (((pcm16_vals frames).getD (i * 2 + 1) 0 : ℤ) : ℝ) / 32768)

/-- The 4-byte branch's float32 interpretation of the truncated payload
`frames[:count*4]` with `count = len(frames)//4`. -/
noncomputable def f32_vals (frames : List ℕ) : List ℝ :=
  (List.range (frames.length / 4)).map (fun i =>
    ((f32 (frames.getD (i * 4) 0) (frames.getD (i * 4 + 1) 0)
      (frames.getD (i * 4 + 2) 0) (frames.getD (i * 4 + 3) 0) : ℚ) : ℝ))

/-- The 4-byte branch's int32 reinterpretation, normalised by 2147483648.0. -/
noncomputable def i32_vals (frames : List ℕ) : List ℝ :=
  (List.range (frames.length / 4)).map (fun i =>
    ((i32 (frames.getD (i * 4) 0) (frames.getD (i * 4 + 1) 0)
      (frames.getD (i * 4 + 2) 0) (frames.getD (i * 4 + 3) 0) : ℤ) : ℝ) / 2147483648)

/-- The 4-byte branch's `vals` after the magnitude heuristic: float32 values
unless some magnitude exceeds 10.0, in which case the int32 reinterpretation. -/
noncomputable def vals32 (frames : List ℕ) : List ℝ :=
  if 10 < max_abs (f32_vals frames) then i32_vals frames else f32_vals frames

/-- The 4-byte branch's left channel: `[vals[i*2] for i in range(len(vals)//2)]`. -/
noncomputable def left32 (frames : List ℕ) : List ℝ :=
  (List.range ((vals32 frames).length / 2)).map (fun i => (vals32 frames).getD (i * 2) 0)

/-- The 4-byte branch's right channel: `[vals[i*2+1] for i in range(len(vals)//2)]`. -/
noncomputable def right32 (frames : List ℕ) : List ℝ :=
  (List.range ((vals32 frames).length / 2)).map (fun i => (vals32 frames).getD (i * 2 + 1) 0)

/-- `read_wav_stereo` from both scripts, after the `wave` module has produced
`(nch, sr, sw, frames)`: reject a non-stereo layout; for `sw = 2` decode the
whole payload as `array('h')` (CPython raises `ValueError` when the byte
count is not a multiple of the item size 2) and de-interleave with
normalisation by 32768.0; for `sw = 4` decode `len(frames)//4` little-endian
32-bit values with the float32/int32 magnitude heuristic and de-interleave;
reject any other width. -/
noncomputable def read_wav_stereo (nch sr sw : ℕ) (frames : List ℕ) :
    Except WavError (ℕ × List ℝ × List ℝ) :=
  if nch ≠ 2 then .error (.badChannels nch)
  else if sw = 2 then
    if frames.length % 2 ≠ 0 then .error .oddBytes
    else .ok (sr, pcm16_left frames, pcm16_right frames)
  else if sw = 4 then .ok (sr, left32 frames, right32 frames)
  else .error (.badWidth sw)

/-- `analyze_clipping(arr, threshold)` from `quick_audio_analysis.py`:
count samples with `abs(v) >= threshold`; percentage is
`(count/len)*100` on a nonempty buffer and `0` otherwise. -/
noncomputable def analyze_clipping (arr : List ℝ) (threshold : ℝ) : ℕ × ℝ :=
  let clipped := arr.countP (fun v => decide (threshold ≤ |v|))
  (clipped, if arr = [] then 0 else ((clipped : ℝ) / arr.length) * 100)

/-! ## Claims about `leakage_db` and `analyze_clipping` -/

/-- C3 (amended): `leakage_db` returns `(None, None)` exactly when the common
overlapping prefix is empty, i.e. when at least one input is empty (the code
tests `min(len(target), len(reference)) == 0`, not that both are empty);
`(0.0, 0.0)` when the reference has zero energy over the common prefix;
otherwise `(g, 20*log10(|g|))` with `g = Σ(r*t)/Σ(r*r)`, except that for
`g = 0` the decibel slot holds the `-999.0` sentinel. -/
theorem leakage_db_cases (t r : List ℝ) :
    (leakage_db t r = (none, none) ↔ t = [] ∨ r = []) ∧
    (t ≠ [] → r ≠ [] →
      ((r.take (min t.length r.length)).map (fun x => x * x)).sum ≤ 0 →
      leakage_db t r = (some 0, some 0)) ∧
    (t ≠ [] → r ≠ [] →
      0 < ((r.take (min t.length r.length)).map (fun x => x * x)).sum →
      leakage_db t r =
        (some ((((r.take (min t.length r.length)).zip
              (t.take (min t.length r.length))).map (fun p => p.1 * p.2)).sum /
            ((r.take (min t.length r.length)).map (fun x => x * x)).sum),
         some (if 0 < |(((r.take (min t.length r.length)).zip
              (t.take (min t.length r.length))).map (fun p => p.1 * p.2)).sum /
            ((r.take (min t.length r.length)).map (fun x => x * x)).sum| then
            20 * Real.logb 10
              |(((r.take (min t.length r.length)).zip
                (t.take (min t.length r.length))).map (fun p => p.1 * p.2)).sum /
              ((r.take (min t.length r.length)).map (fun x => x * x)).sum|
          else -999))) := by
  refine ⟨⟨fun h => ?_, fun h => ?_⟩, fun ht hr hrr => ?_, fun ht hr hrr => ?_⟩
  · by_contra hne
    push_neg at hne
    have hn : min t.length r.length ≠ 0 := by
      simp [Nat.min_eq_zero_iff, List.length_eq_zero, hne.1, hne.2]
    simp only [leakage_db] at h
    rw [if_neg hn] at h
    split_ifs at h <;> simp at h
  · rcases h with ht | hr
    · simp [leakage_db, ht]
    · simp [leakage_db, hr]
  · have hn : min t.length r.length ≠ 0 := by
      simp [Nat.min_eq_zero_iff, List.length_eq_zero, ht, hr]
    simp only [leakage_db]
    rw [if_neg hn, if_pos hrr]
  · have hn : min t.length r.length ≠ 0 := by
      simp [Nat.min_eq_zero_iff, List.length_eq_zero, ht, hr]
    simp only [leakage_db]
    rw [if_neg hn, if_neg (not_le.mpr hrr)]

/-- Witness for C3: an empty target with nonempty reference yields
`(None, None)`; a zero-energy reference yields `(0.0, 0.0)`. -/
theorem leakage_db_cases_witness :
    leakage_db ([] : List ℝ) [1] = (none, none) ∧
    leakage_db [(1 : ℝ)] [0] = (some 0, some 0) :=
  ⟨(leakage_db_cases [] [1]).1.mpr (Or.inl rfl),
   (leakage_db_cases [1] [0]).2.1 (by simp) (by simp) (by simp)⟩

/-- C3 counterexample: with an empty target and the nonempty reference `[1]`
the inputs are not both empty and the common-prefix reference energy is
`0 ≤ 0`, so the claim predicts `(0.0, 0.0)`; the code tests
`min(len(target), len(reference)) == 0` and returns `(None, None)`. -/
theorem leakage_db_empty_counterexample :
    leakage_db ([] : List ℝ) [1] ≠ (some 0, some 0) := by
  simp [leakage_db]

/-- C9: `analyze_clipping` counts the samples whose magnitude reaches the
threshold, reports `100·count/length` on a nonempty buffer and `0` on an
empty one, and on a buffer with exactly 3 samples at full scale out of 100
reports `(3, 3.0)`. -/
theorem analyze_clipping_spec :
    (∀ (arr : List ℝ) (t : ℝ),
      (analyze_clipping arr t).1 = arr.countP (fun v => decide (t ≤ |v|))) ∧
    (∀ (arr : List ℝ) (t : ℝ), arr ≠ [] →
      (analyze_clipping arr t).2
        = 100 * ((analyze_clipping arr t).1 : ℝ) / arr.length) ∧
    (∀ t : ℝ, (analyze_clipping ([] : List ℝ) t).2 = 0) ∧
    analyze_clipping (List.replicate 97 (0 : ℝ) ++ List.replicate 3 1) (95 / 100)
      = (3, 3) := by
  refine ⟨fun arr t => rfl, fun arr t h => ?_, fun t => rfl, ?_⟩
  · simp only [analyze_clipping]
    rw [if_neg h]
    ring
  · have hc : (List.replicate 97 (0 : ℝ) ++ List.replicate 3 1).countP
        (fun v => decide ((95 / 100 : ℝ) ≤ |v|)) = 3 := by
      rw [List.countP_append, List.countP_replicate, List.countP_replicate]
      simp only [decide_eq_true_eq, abs_zero, abs_one]
      norm_num
    have hne : (List.replicate 97 (0 : ℝ) ++ List.replicate 3 1) ≠ [] := by simp
    simp only [analyze_clipping, hc, if_neg hne, List.length_append,
      List.length_replicate]
    norm_num

/-- Witness for C9 at the one-sample buffer `[1]`. -/
theorem analyze_clipping_spec_witness :
    (analyze_clipping [(1 : ℝ)] (95 / 100)).2
      = 100 * ((analyze_clipping [(1 : ℝ)] (95 / 100)).1 : ℝ) / ([(1 : ℝ)].length) :=
  analyze_clipping_spec.2.1 [1] (95 / 100) (by simp)

/-! ## Claims about `read_wav_stereo` -/

/-- C2 (amended): for width 4 decoding never fails and all trailing bytes
beyond `count*4` are dropped, giving `⌊count/2⌋` frames per channel; for
width 2 an even-length payload decodes with the trailing unpaired value
dropped, giving `⌊(len/2)/2⌋` frames per channel, but a payload of odd byte
length makes decoding fail (`array.frombytes` raises `ValueError`) instead
of silently dropping the trailing byte. -/
theorem read_wav_trailing_bytes (sr : ℕ) :
    (∀ bs : List ℕ, bs.length % 2 = 0 →
      read_wav_stereo 2 sr 2 bs = .ok (sr, pcm16_left bs, pcm16_right bs) ∧
      (pcm16_left bs).length = bs.length / 2 / 2 ∧
      (pcm16_right bs).length = bs.length / 2 / 2) ∧
    (∀ bs : List ℕ, bs.length % 2 ≠ 0 →
      read_wav_stereo 2 sr 2 bs = .error .oddBytes) ∧
    (∀ bs : List ℕ,
      read_wav_stereo 2 sr 4 bs = .ok (sr, left32 bs, right32 bs) ∧
      (left32 bs).length = bs.length / 4 / 2 ∧
      (right32 bs).length = bs.length / 4 / 2) := by
  have hv : ∀ bs : List ℕ, (vals32 bs).length = bs.length / 4 := by
    intro bs
    unfold vals32
    split <;> simp [i32_vals, f32_vals]
  have hp : ∀ bs : List ℕ, (pcm16_vals bs).length = bs.length / 2 := by
    intro bs
    simp [pcm16_vals]
  refine ⟨fun bs h => ⟨?_, ?_, ?_⟩, fun bs h => ?_, fun bs => ⟨?_, ?_, ?_⟩⟩
  · simp [read_wav_stereo, h]
  · simp [pcm16_left, hp]
  · simp [pcm16_right, hp]
  · simp [read_wav_stereo, h]
  · simp [read_wav_stereo]
  · simp [left32, hv]
  · simp [right32, hv]

/-- Witness for C2: a 4-byte even payload decodes to one frame per channel,
a 1-byte payload fails, and a 5-byte width-4 payload decodes to
`⌊(5/4)/2⌋ = 0` frames per channel. -/
theorem read_wav_trailing_bytes_witness :
    (read_wav_stereo 2 44100 2 [0, 64, 0, 192]
        = .ok (44100, pcm16_left [0, 64, 0, 192], pcm16_right [0, 64, 0, 192]) ∧
      (pcm16_left [0, 64, 0, 192]).length = [0, 64, 0, 192].length / 2 / 2 ∧
      (pcm16_right [0, 64, 0, 192]).length = [0, 64, 0, 192].length / 2 / 2) ∧
    read_wav_stereo 2 44100 2 [0] = .error .oddBytes ∧
    (read_wav_stereo 2 44100 4 [0, 0, 0, 0, 0]
        = .ok (44100, left32 [0, 0, 0, 0, 0], right32 [0, 0, 0, 0, 0]) ∧
      (left32 [0, 0, 0, 0, 0]).length = [0, 0, 0, 0, 0].length / 4 / 2 ∧
      (right32 [0, 0, 0, 0, 0]).length = [0, 0, 0, 0, 0].length / 4 / 2) :=
  ⟨(read_wav_trailing_bytes 44100).1 [0, 64, 0, 192] rfl,
   (read_wav_trailing_bytes 44100).2.1 [0] (by simp),
   (read_wav_trailing_bytes 44100).2.2 [0, 0, 0, 0, 0]⟩

/-- C2 counterexample: a width-2 payload with a trailing lone byte does not
decode with the byte silently dropped; `array('h').frombytes` raises
`ValueError`, so the decoder fails. -/
theorem read_wav_odd_byte_counterexample :
    read_wav_stereo 2 44100 2 [0] = .error .oddBytes := by
  simp [read_wav_stereo]

/-- Reading a mapped range at an in-bounds index gives the mapped value. -/
theorem getD_map_range {α : Type} (n : ℕ) (f : ℕ → α) (i : ℕ) (h : i < n)
    (d : α) : ((List.range n).map f).getD i d = f i := by
  rw [List.getD_eq_getElem?_getD, List.getElem?_map, List.getElem?_range h]
  rfl

/-- C8: width-2 payloads decode as signed 16-bit little-endian values
normalised by 32768.0, even value positions going to the left channel and
odd value positions to the right: for every payload, the `i`-th left sample
is the value at index `2i` (bytes `4i`, `4i+1`) and the `i`-th right sample
is the value at index `2i+1` (bytes `4i+2`, `4i+3`); in particular the
synthetic one-frame stereo buffer `[16384, -16384]` (bytes `[0, 64, 0, 192]`)
decodes to `left = [0.5]`, `right = [-0.5]` exactly, hence within the
`1/65536` tolerance. -/
theorem read_wav_int16_decode (sr : ℕ) :
    (∀ bs : List ℕ, bs.length % 2 = 0 →
      read_wav_stereo 2 sr 2 bs = .ok (sr, pcm16_left bs, pcm16_right bs)) ∧
    (∀ bs : List ℕ, (pcm16_left bs).length = bs.length / 2 / 2 ∧
      (pcm16_right bs).length = bs.length / 2 / 2) ∧
    (∀ (bs : List ℕ) (i : ℕ), i < bs.length / 2 / 2 →
      (pcm16_left bs).getD i 0
        = ((s16 (bs.getD (4 * i) 0) (bs.getD (4 * i + 1) 0) : ℤ) : ℝ) / 32768) ∧
    (∀ (bs : List ℕ) (i : ℕ), i < bs.length / 2 / 2 →
      (pcm16_right bs).getD i 0
        = ((s16 (bs.getD (4 * i + 2) 0) (bs.getD (4 * i + 3) 0) : ℤ) : ℝ) / 32768) ∧
    (∀ b0 b1 b2 b3 : ℕ,
      read_wav_stereo 2 sr 2 [b0, b1, b2, b3]
        = .ok (sr, [((s16 b0 b1 : ℤ) : ℝ) / 32768],
            [((s16 b2 b3 : ℤ) : ℝ) / 32768])) ∧
    read_wav_stereo 2 44100 2 [0, 64, 0, 192]
      = .ok (44100, [(1 : ℝ) / 2], [-((1 : ℝ) / 2)]) ∧
    |(1 : ℝ) / 2 - 1 / 2| ≤ 1 / 65536 ∧
    |(-((1 : ℝ) / 2)) - (-(1 / 2))| ≤ 1 / 65536 := by
  have hvals : ∀ bs : List ℕ, (pcm16_vals bs).length = bs.length / 2 := by
    intro bs
    simp [pcm16_vals]
  have hlens : ∀ bs : List ℕ, (pcm16_left bs).length = bs.length / 2 / 2 ∧
      (pcm16_right bs).length = bs.length / 2 / 2 := by
    intro bs
    constructor
    · simp [pcm16_left, hvals]
    · simp [pcm16_right, hvals]
  have hleft : ∀ (bs : List ℕ) (i : ℕ), i < bs.length / 2 / 2 →
      (pcm16_left bs).getD i 0
        = ((s16 (bs.getD (4 * i) 0) (bs.getD (4 * i + 1) 0) : ℤ) : ℝ) / 32768 := by
    intro bs i hi
    unfold pcm16_left
    rw [hvals, getD_map_range _ _ _ hi]
    unfold pcm16_vals
    rw [getD_map_range _ _ _ (show i * 2 < bs.length / 2 by omega)]
    rw [show i * 2 * 2 = 4 * i by ring]
  have hright : ∀ (bs : List ℕ) (i : ℕ), i < bs.length / 2 / 2 →
      (pcm16_right bs).getD i 0
        = ((s16 (bs.getD (4 * i + 2) 0) (bs.getD (4 * i + 3) 0) : ℤ) : ℝ) / 32768 := by
    intro bs i hi
    unfold pcm16_right
    rw [hvals, getD_map_range _ _ _ hi]
    unfold pcm16_vals
    rw [getD_map_range _ _ _ (show i * 2 + 1 < bs.length / 2 by omega)]
    rw [show (i * 2 + 1) * 2 = 4 * i + 2 by ring,
      show 4 * i + 2 + 1 = 4 * i + 3 by ring]
  have hok : ∀ bs : List ℕ, bs.length % 2 = 0 →
      read_wav_stereo 2 sr 2 bs = .ok (sr, pcm16_left bs, pcm16_right bs) := by
    intro bs h
    simp [read_wav_stereo, h]
  have hgen : ∀ sr2 b0 b1 b2 b3 : ℕ,
      read_wav_stereo 2 sr2 2 [b0, b1, b2, b3]
        = .ok (sr2, [((s16 b0 b1 : ℤ) : ℝ) / 32768],
            [((s16 b2 b3 : ℤ) : ℝ) / 32768]) := by
    intro sr2 b0 b1 b2 b3
    simp [read_wav_stereo, pcm16_left, pcm16_right, pcm16_vals, List.range_succ]
  refine ⟨hok, hlens, hleft, hright, hgen sr, ?_, by norm_num, by norm_num⟩
  rw [hgen 44100 0 64 0 192]
  norm_num [s16]

/-- Witness for C8 on the two-frame payload `[1,0, 2,0, 3,0, 4,0]` (values
`1, 2, 3, 4`): the second left sample comes from value index 2 (bytes 4, 5)
and the second right sample from value index 3 (bytes 6, 7), exercising the
even/odd de-interleave beyond a single frame. -/
theorem read_wav_int16_decode_witness :
    read_wav_stereo 2 8000 2 [1, 0, 2, 0, 3, 0, 4, 0]
      = .ok (8000, pcm16_left [1, 0, 2, 0, 3, 0, 4, 0],
          pcm16_right [1, 0, 2, 0, 3, 0, 4, 0]) ∧
    (pcm16_left [1, 0, 2, 0, 3, 0, 4, 0]).getD 1 0
      = ((s16 ([1, 0, 2, 0, 3, 0, 4, 0].getD (4 * 1) 0)
          ([1, 0, 2, 0, 3, 0, 4, 0].getD (4 * 1 + 1) 0) : ℤ) : ℝ) / 32768 ∧
    (pcm16_right [1, 0, 2, 0, 3, 0, 4, 0]).getD 1 0
      = ((s16 ([1, 0, 2, 0, 3, 0, 4, 0].getD (4 * 1 + 2) 0)
          ([1, 0, 2, 0, 3, 0, 4, 0].getD (4 * 1 + 3) 0) : ℤ) : ℝ) / 32768 :=
  ⟨(read_wav_int16_decode 8000).1 [1, 0, 2, 0, 3, 0, 4, 0] rfl,
   (read_wav_int16_decode 8000).2.2.1 [1, 0, 2, 0, 3, 0, 4, 0] 1 (by norm_num),
   (read_wav_int16_decode 8000).2.2.2.1 [1, 0, 2, 0, 3, 0, 4, 0] 1 (by norm_num)⟩

/-! ## Claims about `corr_at_lag` -/

/-- Zipping a list with itself pairs each element with itself. -/
theorem zip_self (l : List ℝ) : l.zip l = l.map (fun t => (t, t)) := by
  induction l with
  | nil => rfl
  | cons x t ih => rw [List.zip_cons_cons, ih, List.map_cons]

/-- A list of nonnegative reals with zero sum is all zeros. -/
theorem sum_all_zero_of_nonneg (l : List ℝ) (h0 : ∀ z ∈ l, 0 ≤ z)
    (hs : l.sum = 0) : ∀ z ∈ l, z = 0 := by
  induction l with
  | nil => simp
  | cons x t ih =>
    have hx : 0 ≤ x := h0 x (by simp)
    have ht : ∀ z ∈ t, 0 ≤ z := fun z hz => h0 z (by simp [hz])
    have hts : 0 ≤ t.sum := List.sum_nonneg ht
    rw [List.sum_cons] at hs
    have hx0 : x = 0 := by linarith
    have hts0 : t.sum = 0 := by linarith
    intro z hz
    rcases List.mem_cons.mp hz with h | h
    · rw [h, hx0]
    · exact ih ht hts0 z h

/-- The `num` accumulator is symmetric under swapping the two slices. -/
theorem corr_num_comm (x y : List ℝ) : corr_num y x = corr_num x y := by
  unfold corr_num
  rw [← List.zip_swap x y, List.map_map]
  apply congrArg List.sum
  apply List.map_congr_left
  intro p _
  simp only [Function.comp_apply, Prod.fst_swap, Prod.snd_swap]
  ring

/-- Swapping the slices turns the `da` accumulator into `db`. -/
theorem corr_da_comm (x y : List ℝ) : corr_da y x = corr_db x y := by
  unfold corr_da corr_db
  rw [← List.zip_swap x y, List.map_map]
  apply congrArg List.sum
  apply List.map_congr_left
  intro p _
  simp only [Function.comp_apply, Prod.fst_swap, Prod.snd_swap]

/-- Swapping the slices turns the `db` accumulator into `da`. -/
theorem corr_db_comm (x y : List ℝ) : corr_db y x = corr_da x y := by
  unfold corr_da corr_db
  rw [← List.zip_swap x y, List.map_map]
  apply congrArg List.sum
  apply List.map_congr_left
  intro p _
  simp only [Function.comp_apply, Prod.fst_swap, Prod.snd_swap]

/-- The correlation body is symmetric in its two slices. -/
theorem corr_core_comm (x y : List ℝ) : corr_core y x = corr_core x y := by
  unfold corr_core
  rw [corr_num_comm x y, corr_da_comm x y, corr_db_comm x y,
    mul_comm (corr_db x y) (corr_da x y)]
  exact if_congr or_comm rfl (if_congr or_comm rfl rfl)

/-- C6: `corr_at_lag(a, b, lag) = corr_at_lag(b, a, -lag)` — the invariance
holds exactly, for every pair of buffers and every lag (the slices formed in
the two calls coincide up to order, and the correlation body is symmetric),
which in particular confirms it up to the boundary truncation the spec
allows for. -/
theorem corr_at_lag_swap_neg (a b : List ℝ) (lag : ℤ) :
    corr_at_lag a b lag = corr_at_lag b a (-lag) := by
  rcases lt_trichotomy lag 0 with hneg | hz | hpos
  · have h1 : ¬ lag = 0 := hneg.ne
    have h2 : ¬ 0 < lag := not_lt.mpr hneg.le
    have h3 : ¬ -lag = 0 := by omega
    have h4 : 0 < -lag := by omega
    simp only [corr_at_lag, if_neg h1, if_neg h2, if_neg h3, if_pos h4]
    exact (corr_core_comm _ _).symm
  · subst hz
    simp only [corr_at_lag, neg_zero, if_pos rfl]
    have hmin : min b.length a.length = min a.length b.length := min_comm _ _
    simp only [truncate_same_len, hmin]
    exact (corr_core_comm _ _).symm
  · have h1 : ¬ lag = 0 := hpos.ne'
    have h3 : ¬ -lag = 0 := by omega
    have h4 : ¬ 0 < -lag := by omega
    simp only [corr_at_lag, if_neg h1, if_pos hpos, if_neg h3, if_neg h4, neg_neg]
    exact (corr_core_comm _ _).symm

/-- C7: self-correlation at zero lag is 1 for every non-constant buffer
(two distinct elements force a strictly positive centered energy, and then
`num = da = db` gives `S / sqrt(S*S) = 1`). -/
theorem corr_self_lag_zero (a : List ℝ) (h : ∃ x ∈ a, ∃ y ∈ a, x ≠ y) :
    corr_at_lag a a 0 = 1 := by
  obtain ⟨x, hx, y, hy, hxy⟩ := h
  have hne : a ≠ [] := by rintro rfl; simp at hx
  have htr : truncate_same_len a a = (a, a) := by
    simp [truncate_same_len]
  have hzip : a.zip a = a.map (fun t => (t, t)) := zip_self a
  have hnum : corr_num a a = (a.map (fun t => (t - mean a) * (t - mean a))).sum := by
    unfold corr_num
    rw [hzip, List.map_map]
    rfl
  have hda : corr_da a a = (a.map (fun t => (t - mean a) * (t - mean a))).sum := by
    unfold corr_da
    rw [hzip, List.map_map]
    rfl
  have hdb : corr_db a a = (a.map (fun t => (t - mean a) * (t - mean a))).sum := by
    unfold corr_db
    rw [hzip, List.map_map]
    rfl
  have hnn : ∀ z ∈ a.map (fun t => (t - mean a) * (t - mean a)), 0 ≤ z := by
    intro z hz
    obtain ⟨t, _, rfl⟩ := List.mem_map.mp hz
    exact mul_self_nonneg _
  have hSne : (a.map (fun t => (t - mean a) * (t - mean a))).sum ≠ 0 := by
    intro h0
    have hall := sum_all_zero_of_nonneg _ hnn h0
    have hx0 : x - mean a = 0 := by
      have := hall _ (List.mem_map.mpr ⟨x, hx, rfl⟩)
      exact mul_self_eq_zero.mp this
    have hy0 : y - mean a = 0 := by
      have := hall _ (List.mem_map.mpr ⟨y, hy, rfl⟩)
      exact mul_self_eq_zero.mp this
    exact hxy (by linarith)
  have hSpos : 0 < (a.map (fun t => (t - mean a) * (t - mean a))).sum :=
    lt_of_le_of_ne (List.sum_nonneg hnn) (Ne.symm hSne)
  have hcore : corr_at_lag a a 0 = corr_core a a := by
    simp [corr_at_lag, htr]
  have h1 : ¬ corr_da a a ≤ 0 := by
    rw [hda]
    exact not_le.mpr hSpos
  have h2 : ¬ corr_db a a ≤ 0 := by
    rw [hdb]
    exact not_le.mpr hSpos
  rw [hcore]
  unfold corr_core
  rw [if_neg (not_or.mpr ⟨hne, hne⟩), if_neg (not_or.mpr ⟨h1, h2⟩),
    hnum, hda, hdb, Real.sqrt_mul_self hSpos.le, div_self hSpos.ne']

/-- Witness for C7 at the non-constant buffer `[0, 1]`. -/
theorem corr_self_lag_zero_witness : corr_at_lag [(0 : ℝ), 1] [(0 : ℝ), 1] 0 = 1 :=
  corr_self_lag_zero [0, 1] ⟨0, by simp, 1, by simp, by norm_num⟩

/-! ## Claims about `best_lag` -/

/-- Cauchy-Schwarz for the three zip-sums of the correlation loop. -/
theorem list_cauchy_schwarz (l : List (ℝ × ℝ)) (f g : ℝ × ℝ → ℝ) :
    ((l.map (fun p => f p * g p)).sum) ^ 2
      ≤ ((l.map (fun p => f p * f p)).sum) * ((l.map (fun p => g p * g p)).sum) := by
  have e1 : (l.map (fun p => f p * g p)).sum
      = ∑ i : Fin l.length, f (l.get i) * g (l.get i) := by
    conv_lhs => rw [← List.ofFn_get l]
    rw [List.map_ofFn, List.sum_ofFn]
    rfl
  have e2 : (l.map (fun p => f p * f p)).sum
      = ∑ i : Fin l.length, f (l.get i) * f (l.get i) := by
    conv_lhs => rw [← List.ofFn_get l]
    rw [List.map_ofFn, List.sum_ofFn]
    rfl
  have e3 : (l.map (fun p => g p * g p)).sum
      = ∑ i : Fin l.length, g (l.get i) * g (l.get i) := by
    conv_lhs => rw [← List.ofFn_get l]
    rw [List.map_ofFn, List.sum_ofFn]
    rfl
  rw [e1, e2, e3]
  have h := Finset.sum_mul_sq_le_sq_mul_sq Finset.univ
    (fun i : Fin l.length => f (l.get i)) (fun i : Fin l.length => g (l.get i))
  simpa [pow_two] using h

/-- The correlation body never goes below -1. -/
theorem corr_core_ge_neg_one (x y : List ℝ) : -1 ≤ corr_core x y := by
  unfold corr_core
  split
  · norm_num
  · split
    · norm_num
    · rename_i h1 h2
      push_neg at h2
      obtain ⟨hda, hdb⟩ := h2
      have hcs : (corr_num x y) ^ 2 ≤ corr_da x y * corr_db x y := by
        have := list_cauchy_schwarz (x.zip y)
          (fun p => p.1 - mean x) (fun p => p.2 - mean y)
        simpa [corr_num, corr_da, corr_db] using this
      have hpos : 0 < Real.sqrt (corr_da x y * corr_db x y) :=
        Real.sqrt_pos.mpr (mul_pos hda hdb)
      rw [le_div_iff₀ hpos]
      have habs : |corr_num x y| ≤ Real.sqrt (corr_da x y * corr_db x y) := by
        rw [← Real.sqrt_sq_eq_abs]
        exact Real.sqrt_le_sqrt hcs
      have hnal := neg_abs_le (corr_num x y)
      linarith

/-- `corr_at_lag` never goes below -1. -/
theorem corr_at_lag_ge_neg_one (a b : List ℝ) (lag : ℤ) : -1 ≤ corr_at_lag a b lag := by
  unfold corr_at_lag
  split_ifs <;> exact corr_core_ge_neg_one _ _

/-- The scan of `best_lag` keeps its accumulator when no scanned lag strictly
beats the running best. -/
theorem best_step_stay (a b : List ℝ) :
    ∀ (l : List ℤ) (p : ℤ × ℝ), (∀ z ∈ l, corr_at_lag a b z ≤ p.2) →
      l.foldl (best_step a b) p = p := by
  intro l
  induction l with
  | nil => intro p _; rfl
  | cons z t ih =>
    intro p hp
    rw [List.foldl_cons]
    have hz : corr_at_lag a b z ≤ p.2 := hp z (by simp)
    have hstep : best_step a b p z = p := by
      unfold best_step
      rw [if_neg (not_lt.mpr hz)]
    rw [hstep]
    exact ih p (fun w hw => hp w (by simp [hw]))

/-- Complete description of the strict-improvement scan of `best_lag`:
either nothing beats the initial accumulator, or the scan returns the first
element attaining the maximum value above it — every element strictly before
the winner scores strictly less, every element after scores no more. -/
theorem best_step_foldl_cases (a b : List ℝ) :
    ∀ (l : List ℤ) (p : ℤ × ℝ),
      (l.foldl (best_step a b) p = p ∧ ∀ z ∈ l, corr_at_lag a b z ≤ p.2) ∨
      (∃ l1 l2, l = l1 ++ (l.foldl (best_step a b) p).1 :: l2 ∧
        (l.foldl (best_step a b) p).2
          = corr_at_lag a b (l.foldl (best_step a b) p).1 ∧
        p.2 < (l.foldl (best_step a b) p).2 ∧
        (∀ z ∈ l1, corr_at_lag a b z < (l.foldl (best_step a b) p).2) ∧
        (∀ z ∈ l2, corr_at_lag a b z ≤ (l.foldl (best_step a b) p).2)) := by
  intro l
  induction l with
  | nil => intro p; exact Or.inl ⟨rfl, by simp⟩
  | cons z t ih =>
    intro p
    rw [List.foldl_cons]
    by_cases hc : p.2 < corr_at_lag a b z
    · have hstep : best_step a b p z = (z, corr_at_lag a b z) := by
        unfold best_step
        rw [if_pos hc]
      rw [hstep]
      rcases ih (z, corr_at_lag a b z) with ⟨heq, hall⟩ |
        ⟨l1, l2, hdec, hcor, hlt, hpre, hpost⟩
      · right
        refine ⟨[], t, ?_, ?_, ?_, by simp, ?_⟩
        · simp [heq]
        · simp [heq]
        · rw [heq]; exact hc
        · intro w hw
          rw [heq]
          exact hall w hw
      · right
        refine ⟨z :: l1, l2, ?_, hcor, lt_trans hc hlt, ?_, hpost⟩
        · rw [List.cons_append]
          exact congrArg (List.cons z) hdec
        · intro w hw
          rcases List.mem_cons.mp hw with rfl | hw2
          · exact hlt
          · exact hpre w hw2
    · have hstep : best_step a b p z = p := by
        unfold best_step
        rw [if_neg hc]
      rw [hstep]
      rcases ih p with ⟨heq, hall⟩ | ⟨l1, l2, hdec, hcor, hlt, hpre, hpost⟩
      · left
        refine ⟨heq, ?_⟩
        intro w hw
        rcases List.mem_cons.mp hw with rfl | hw2
        · exact not_lt.mp hc
        · exact hall w hw2
      · right
        refine ⟨z :: l1, l2, ?_, hcor, hlt, ?_, hpost⟩
        · rw [List.cons_append]
          exact congrArg (List.cons z) hdec
        · intro w hw
          rcases List.mem_cons.mp hw with rfl | hw2
          · exact lt_of_le_of_lt (not_lt.mp hc) hlt
          · exact hpre w hw2

/-- A nonempty Python range starts at `start`. -/
theorem pyRange_head (start stop step : ℤ) (hstep : 0 < step) (hlt : start < stop) :
    (pyRange start stop step).head? = some start := by
  unfold pyRange
  rw [if_neg (not_le.mpr hstep)]
  have hn : 0 < ((stop - start + step - 1) / step).toNat := by
    have h1 : 1 ≤ (stop - start + step - 1) / step := by
      rw [Int.le_ediv_iff_mul_le hstep]
      omega
    omega
  obtain ⟨n, hn2⟩ : ∃ n, ((stop - start + step - 1) / step).toNat = n + 1 :=
    ⟨_, (Nat.succ_pred_eq_of_pos hn).symm⟩
  rw [hn2, List.range_succ_eq_map]
  simp

/-- A nonempty Python range contains its start. -/
theorem pyRange_head_mem (start stop step : ℤ) (hstep : 0 < step)
    (hlt : start < stop) : start ∈ pyRange start stop step :=
  List.mem_of_mem_head?
    (by rw [Option.mem_def, pyRange_head start stop step hstep hlt])

/-- C5: `best_lag` scans exactly `range(-maxlag, maxlag+1, step)` with
`maxlag = ⌊sr*max_ms/1000⌋`, returns a scanned lag together with its
correlation value, no scanned lag scores more, and every lag scanned before
the returned one scores strictly less — the first maximiser wins because the
comparison is strict. -/
theorem best_lag_first_argmax (a b : List ℝ) (sr maxMs step : ℕ) (hstep : 1 ≤ step) :
    (best_lag a b sr maxMs step).1
        ∈ pyRange (-(sr * maxMs / 1000 : ℕ)) ((sr * maxMs / 1000 : ℕ) + 1) step ∧
    (best_lag a b sr maxMs step).2
        = corr_at_lag a b (best_lag a b sr maxMs step).1 ∧
    (∀ lag ∈ pyRange (-(sr * maxMs / 1000 : ℕ)) ((sr * maxMs / 1000 : ℕ) + 1) step,
      corr_at_lag a b lag ≤ (best_lag a b sr maxMs step).2) ∧
    ∃ l1 l2,
      pyRange (-(sr * maxMs / 1000 : ℕ)) ((sr * maxMs / 1000 : ℕ) + 1) step
        = l1 ++ (best_lag a b sr maxMs step).1 :: l2 ∧
      ∀ lag ∈ l1, corr_at_lag a b lag < (best_lag a b sr maxMs step).2 := by
  have hstep0 : (0 : ℤ) < (step : ℤ) := by exact_mod_cast hstep
  have hlt : (-(sr * maxMs / 1000 : ℕ) : ℤ) < ((sr * maxMs / 1000 : ℕ) : ℤ) + 1 := by
    have h0 := Int.natCast_nonneg (sr * maxMs / 1000)
    omega
  have hmem := pyRange_head_mem _ _ _ hstep0 hlt
  have hfold : best_lag a b sr maxMs step
      = (pyRange (-(sr * maxMs / 1000 : ℕ)) ((sr * maxMs / 1000 : ℕ) + 1) step).foldl
          (best_step a b) (0, -2) := rfl
  rcases best_step_foldl_cases a b
      (pyRange (-(sr * maxMs / 1000 : ℕ)) ((sr * maxMs / 1000 : ℕ) + 1) step) (0, -2)
    with ⟨heq, hall⟩ | ⟨l1, l2, hdec, hcor, hlt2, hpre, hpost⟩
  · exfalso
    have h1 := hall _ hmem
    have h2 := corr_at_lag_ge_neg_one a b (-(sr * maxMs / 1000 : ℕ))
    have h3 : ((0 : ℤ × ℝ).2 : ℝ) = 0 := rfl
    simp only [Prod.snd] at h1
    linarith
  · rw [hfold]
    set r := (pyRange (-(sr * maxMs / 1000 : ℕ)) ((sr * maxMs / 1000 : ℕ) + 1) step).foldl
      (best_step a b) (0, -2) with hr
    refine ⟨?_, hcor, ?_, l1, l2, hdec, hpre⟩
    · rw [hdec]
      exact List.mem_append.mpr (Or.inr (List.mem_cons_self _ _))
    · intro lag hlag
      rw [hdec] at hlag
      rcases List.mem_append.mp hlag with h | h
      · exact le_of_lt (hpre lag h)
      · rcases List.mem_cons.mp h with rfl | h2
        · exact le_of_eq hcor.symm
        · exact hpost lag h2

/-- Witness for C5 at the concrete pair `[0,1]`, `[0,1]` with a one-sample
search window. -/
theorem best_lag_first_argmax_witness :
    (best_lag [(0 : ℝ), 1] [(0 : ℝ), 1] 1000 1 1).1
        ∈ pyRange (-((1000 * 1 / 1000 : ℕ) : ℤ)) ((1000 * 1 / 1000 : ℕ) + 1) 1 ∧
    (best_lag [(0 : ℝ), 1] [(0 : ℝ), 1] 1000 1 1).2
        = corr_at_lag [(0 : ℝ), 1] [(0 : ℝ), 1]
            (best_lag [(0 : ℝ), 1] [(0 : ℝ), 1] 1000 1 1).1 ∧
    (∀ lag ∈ pyRange (-((1000 * 1 / 1000 : ℕ) : ℤ)) ((1000 * 1 / 1000 : ℕ) + 1) 1,
      corr_at_lag [(0 : ℝ), 1] [(0 : ℝ), 1] lag
        ≤ (best_lag [(0 : ℝ), 1] [(0 : ℝ), 1] 1000 1 1).2) ∧
    ∃ l1 l2,
      pyRange (-((1000 * 1 / 1000 : ℕ) : ℤ)) ((1000 * 1 / 1000 : ℕ) + 1) 1
        = l1 ++ (best_lag [(0 : ℝ), 1] [(0 : ℝ), 1] 1000 1 1).1 :: l2 ∧
      ∀ lag ∈ l1, corr_at_lag [(0 : ℝ), 1] [(0 : ℝ), 1] lag
        < (best_lag [(0 : ℝ), 1] [(0 : ℝ), 1] 1000 1 1).2 :=
  best_lag_first_argmax [0, 1] [0, 1] 1000 1 1 (by norm_num)

/-- Every correlation of two empty buffers is 0 (all slices are empty). -/
theorem corr_at_lag_nil (lag : ℤ) : corr_at_lag ([] : List ℝ) [] lag = 0 := by
  unfold corr_at_lag
  split_ifs <;> simp [truncate_same_len, corr_core]

/-- C10: when every scanned lag scores the degenerate value 0, `best_lag`
returns the very first scanned lag `-maxlag` with correlation 0 — the
initial accumulator `(0, -2.0)` is beaten immediately and never replaced —
not lag 0. -/
theorem best_lag_degenerate_first (a b : List ℝ) (sr maxMs step : ℕ)
    (hstep : 1 ≤ step) (hzero : ∀ lag : ℤ, corr_at_lag a b lag = 0) :
    best_lag a b sr maxMs step = (-((sr * maxMs / 1000 : ℕ) : ℤ), 0) := by
  have hstep0 : (0 : ℤ) < (step : ℤ) := by exact_mod_cast hstep
  have hlt : (-(sr * maxMs / 1000 : ℕ) : ℤ) < ((sr * maxMs / 1000 : ℕ) : ℤ) + 1 := by
    have h0 := Int.natCast_nonneg (sr * maxMs / 1000)
    omega
  have hmem := pyRange_head_mem _ _ _ hstep0 hlt
  have hhead := pyRange_head _ _ _ hstep0 hlt
  have hfold : best_lag a b sr maxMs step
      = (pyRange (-(sr * maxMs / 1000 : ℕ)) ((sr * maxMs / 1000 : ℕ) + 1) step).foldl
          (best_step a b) (0, -2) := rfl
  rcases best_step_foldl_cases a b
      (pyRange (-(sr * maxMs / 1000 : ℕ)) ((sr * maxMs / 1000 : ℕ) + 1) step) (0, -2)
    with ⟨heq, hall⟩ | ⟨l1, l2, hdec, hcor, hlt2, hpre, hpost⟩
  · exfalso
    have h1 := hall _ hmem
    rw [hzero] at h1
    norm_num at h1
  · have hr2 : ((pyRange (-(sr * maxMs / 1000 : ℕ)) ((sr * maxMs / 1000 : ℕ) + 1) step).foldl
        (best_step a b) (0, -2)).2 = 0 := by
      rw [hcor, hzero]
    have hl1 : l1 = [] := by
      cases l1 with
      | nil => rfl
      | cons w t =>
        exfalso
        have hw := hpre w (by simp)
        rw [hzero, hr2] at hw
        exact lt_irrefl 0 hw
    subst hl1
    have hh2 : (pyRange (-(sr * maxMs / 1000 : ℕ)) ((sr * maxMs / 1000 : ℕ) + 1) step).head?
        = some ((pyRange (-(sr * maxMs / 1000 : ℕ)) ((sr * maxMs / 1000 : ℕ) + 1) step).foldl
            (best_step a b) (0, -2)).1 := by
      have hcg := congrArg List.head? hdec
      simpa using hcg
    have hr1 : ((pyRange (-(sr * maxMs / 1000 : ℕ)) ((sr * maxMs / 1000 : ℕ) + 1) step).foldl
        (best_step a b) (0, -2)).1 = -(sr * maxMs / 1000 : ℕ) := by
      rw [hhead] at hh2
      exact (Option.some.inj hh2).symm
    rw [hfold]
    exact Prod.ext hr1 hr2

/-- Witness for C10: two empty buffers make every correlation 0, and the
scan returns `(-maxlag, 0)` with `maxlag = ⌊1000*1/1000⌋ = 1`. -/
theorem best_lag_degenerate_first_witness :
    best_lag ([] : List ℝ) [] 1000 1 1 = (-((1000 * 1 / 1000 : ℕ) : ℤ), 0) :=
  best_lag_degenerate_first [] [] 1000 1 1 (by norm_num) corr_at_lag_nil

/-! ## Claims about `noise_floor_db` -/

/-- A Python range from 0 with positive step `w` enumerates the multiples of
`w` below the stop, `⌈m/w⌉` of them. -/
theorem pyRange_zero (m w : ℕ) (hw : 1 ≤ w) :
    pyRange 0 (m : ℤ) w
      = (List.range ((m + w - 1) / w)).map (fun k => ((w * k : ℕ) : ℤ)) := by
  have hw0 : (0 : ℤ) < w := by exact_mod_cast hw
  unfold pyRange
  rw [if_neg (not_le.mpr hw0)]
  have h1 : (m : ℤ) - 0 + w - 1 = ((m + w - 1 : ℕ) : ℤ) := by omega
  rw [h1, ← Int.ofNat_ediv, Int.toNat_natCast]
  apply List.map_congr_left
  intro k _
  push_cast
  ring

/-- The window list of `noise_floor_db` in closed form: when the buffer is at
least one window long, it holds the RMS of the ⌊(len-1)/win⌋ windows at
offsets `0, win, 2·win, …` strictly below `len - win`. -/
theorem noise_windows_eq (arr : List ℝ) (win : ℕ) (hw : 1 ≤ win)
    (hle : win ≤ arr.length) :
    noise_windows arr win
      = (List.range ((arr.length - 1) / win)).map
          (fun k => rms ((arr.drop (k * win)).take win)) := by
  unfold noise_windows
  have hcast : ((arr.length : ℤ) - win) = ((arr.length - win : ℕ) : ℤ) := by omega
  rw [hcast, pyRange_zero (arr.length - win) win hw, List.map_map]
  have hcount : (arr.length - win + win - 1) / win = (arr.length - 1) / win := by
    congr 1
    omega
  rw [hcount]
  apply List.map_congr_left
  intro k _
  simp only [Function.comp_apply, Int.toNat_natCast]
  rw [mul_comm win k]

/-- Number of windows collected by `noise_floor_db` on a buffer of at least
one window. -/
theorem noise_windows_length (arr : List ℝ) (win : ℕ) (hw : 1 ≤ win)
    (hle : win ≤ arr.length) :
    (noise_windows arr win).length = (arr.length - 1) / win := by
  rw [noise_windows_eq arr win hw hle]
  simp

/-- C1 (amended): for every buffer strictly longer than one window
(window = max(1, ⌊sr·win_ms/1000⌋)), the estimator collects exactly
⌊(length-1)/window⌋ per-window RMS values — one fewer than the claimed
⌊length/window⌋ whenever the window divides the length, because the loop
`range(0, len-win, win)` stops strictly before `len-win` — over
non-overlapping windows at offsets `k·window`, sorts them ascending, and
returns `to_dbfs` of the entry at index `max(0, int(count·percentile)-1)`. -/
theorem noise_floor_window_collection (arr : List ℝ) (sr winMs : ℕ) (p : ℝ)
    (hlen : max 1 (sr * winMs / 1000) < arr.length) :
    (noise_windows arr (max 1 (sr * winMs / 1000))).length
        = (arr.length - 1) / max 1 (sr * winMs / 1000) ∧
    1 ≤ (arr.length - 1) / max 1 (sr * winMs / 1000) ∧
    noise_windows arr (max 1 (sr * winMs / 1000))
        = (List.range ((arr.length - 1) / max 1 (sr * winMs / 1000))).map
            (fun k => rms ((arr.drop (k * max 1 (sr * winMs / 1000))).take
              (max 1 (sr * winMs / 1000)))) ∧
    noise_floor_db arr sr winMs p
        = dbfs (((noise_windows arr (max 1 (sr * winMs / 1000))).mergeSort
            (fun x y => decide (x ≤ y))).getD
            (max 0 (pyInt (((noise_windows arr (max 1 (sr * winMs / 1000))).length : ℝ)
              * p) - 1)).toNat 0) := by
  have hw : 1 ≤ max 1 (sr * winMs / 1000) := le_max_left _ _
  have hle : max 1 (sr * winMs / 1000) ≤ arr.length := le_of_lt hlen
  have hlength := noise_windows_length arr _ hw hle
  have hcount : 1 ≤ (arr.length - 1) / max 1 (sr * winMs / 1000) := by
    rw [Nat.le_div_iff_mul_le (by omega : 0 < max 1 (sr * winMs / 1000))]
    omega
  refine ⟨hlength, hcount, noise_windows_eq arr _ hw hle, ?_⟩
  have hne : noise_windows arr (max 1 (sr * winMs / 1000)) ≠ [] := by
    intro h0
    have h1 : (0 : ℕ) = (arr.length - 1) / max 1 (sr * winMs / 1000) := by
      rw [← hlength, h0]
      rfl
    rw [← h1] at hcount
    exact absurd hcount (by norm_num)
  simp only [noise_floor_db]
  rw [if_neg (not_lt.mpr hle), if_neg hne]

/-- Witness for C1 on the three-sample buffer `[0,0,0]` with a one-sample
window. -/
theorem noise_floor_window_collection_witness :
    (noise_windows ([0, 0, 0] : List ℝ) (max 1 (1000 * 1 / 1000))).length
        = (([0, 0, 0] : List ℝ).length - 1) / max 1 (1000 * 1 / 1000) ∧
    1 ≤ (([0, 0, 0] : List ℝ).length - 1) / max 1 (1000 * 1 / 1000) ∧
    noise_windows ([0, 0, 0] : List ℝ) (max 1 (1000 * 1 / 1000))
        = (List.range ((([0, 0, 0] : List ℝ).length - 1) / max 1 (1000 * 1 / 1000))).map
            (fun k => rms ((([0, 0, 0] : List ℝ).drop (k * max 1 (1000 * 1 / 1000))).take
              (max 1 (1000 * 1 / 1000)))) ∧
    noise_floor_db [0, 0, 0] 1000 1 (1 / 5)
        = dbfs (((noise_windows ([0, 0, 0] : List ℝ) (max 1 (1000 * 1 / 1000))).mergeSort
            (fun x y => decide (x ≤ y))).getD
            (max 0 (pyInt (((noise_windows ([0, 0, 0] : List ℝ)
              (max 1 (1000 * 1 / 1000))).length : ℝ) * (1 / 5)) - 1)).toNat 0) :=
  noise_floor_window_collection [0, 0, 0] 1000 1 (1 / 5) (by norm_num)

/-- C1 counterexample: with `sr = 1000`, `win_ms = 1` the window length is 1,
and on the two-sample buffer `[0, 1]` — whose length is at least one window —
the loop `range(0, 2-1, 1)` collects exactly one window RMS, while the
claim's `⌊length/window⌋` predicts two; accordingly the returned value is
`dbfs` of the only window `rms([0]) = 0` (the `-999.0` sentinel), not `dbfs`
of the second-smallest of two windows. -/
theorem noise_floor_count_counterexample :
    (noise_windows ([0, 1] : List ℝ) (max 1 (1000 * 1 / 1000))).length
      ≠ ([0, 1] : List ℝ).length / max 1 (1000 * 1 / 1000) := by
  norm_num [noise_windows, pyRange]

/-- C4 (amended): in the regime `length ≥ window` the estimator collects
zero windows exactly when the length equals the window — not on the whole of
`[window, 2·window)` as claimed — and in that case falls back to
`to_dbfs(rms(whole buffer))`. -/
theorem noise_floor_exact_window_fallback (arr : List ℝ) (sr winMs : ℕ) (p : ℝ)
    (hle : max 1 (sr * winMs / 1000) ≤ arr.length) :
    (noise_windows arr (max 1 (sr * winMs / 1000)) = []
      ↔ arr.length = max 1 (sr * winMs / 1000)) ∧
    (arr.length = max 1 (sr * winMs / 1000) →
      noise_floor_db arr sr winMs p = dbfs (rms arr)) := by
  have hw : 1 ≤ max 1 (sr * winMs / 1000) := le_max_left _ _
  have hlength := noise_windows_length arr _ hw hle
  have hbwd : arr.length = max 1 (sr * winMs / 1000) →
      noise_windows arr (max 1 (sr * winMs / 1000)) = [] := by
    intro h0
    have h1 : (arr.length - 1) / max 1 (sr * winMs / 1000) = 0 :=
      Nat.div_eq_of_lt (by omega)
    rw [← List.length_eq_zero, hlength, h1]
  refine ⟨⟨fun h0 => ?_, hbwd⟩, fun h0 => ?_⟩
  · have h1 : (arr.length - 1) / max 1 (sr * winMs / 1000) = 0 := by
      rw [← hlength, h0]
      rfl
    have h2 : arr.length - 1 < max 1 (sr * winMs / 1000) :=
      ((Nat.div_eq_zero_iff (by omega)).mp h1)
    omega
  · have hnil := hbwd h0
    simp only [noise_floor_db]
    rw [if_neg (not_lt.mpr hle), if_pos hnil]

/-- Witness for C4 on the buffer `[1, 1]` whose length equals the two-sample
window. -/
theorem noise_floor_exact_window_fallback_witness :
    noise_floor_db [(1 : ℝ), 1] 1000 2 (1 / 5) = dbfs (rms [1, 1]) :=
  (noise_floor_exact_window_fallback [1, 1] 1000 2 (1 / 5) (by norm_num)).2 (by norm_num)

/-- C4 counterexample: with `sr = 1000`, `win_ms = 2` the window length is 2;
the buffer `[1, 1, 0]` has length 3, inside the claimed zero-window regime
`[window, 2·window)`, yet the code collects one window
(`range(0, 3-2, 2) = [0]`), so the window list is not empty and the
whole-buffer fallback is not taken. -/
theorem noise_floor_one_window_counterexample :
    noise_windows ([1, 1, 0] : List ℝ) (max 1 (1000 * 2 / 1000)) ≠ [] := by
  norm_num [noise_windows, pyRange]

end CSAudio
